import Mathlib

/-!
Verification of the concurrent-state core of `rust-genai`: the TTL cache
(`src/cache.rs`, `AppCache`) and the sliding-window rate limiter
(`src/rate_limit.rs`, `RateLimiter`).

The embedding is sequential state passing: each operation that reads the
clock (`Instant::now()` / `Instant::elapsed`) takes the current time `now`
as an explicit `Nat` argument (seconds, the unit both `ttl` and `window`
are expressed in).  `Instant` subtraction (`elapsed`, `duration_since`)
saturates at zero, which truncated `Nat` subtraction mirrors exactly.
The `DashMap` of the cache and the `HashMap` of the limiter are embedded
as total functions out of `String`; a key the limiter has never seen maps
to `[]`, matching `entry(..).or_insert_with(Vec::new)`.
-/

/-- Embedding of `AppCache` (`src/cache.rs`): a map from key to
`(value, createdAt)` plus the fixed `ttl`. -/
structure AppCache where
  map : String → Option (String × Nat)
  ttl : Nat

/-- `AppCache::new`: empty map, `ttl` hardcoded to 300 seconds. -/
def AppCache.new : AppCache :=
  { map := fun _ => none, ttl := 300 }

/-- `AppCache::get`: if the key is present and `ts.elapsed() < ttl`, return
the stored value; if present but expired, remove the entry and return
`none`; if absent, return `none`.  Returns the result together with the
post-call cache state. -/
def AppCache.get (c : AppCache) (key : String) (now : Nat) :
    Option String × AppCache :=
  match c.map key with
  | some (val, ts) =>
      if now - ts < c.ttl then
        (some val, c)
      else
        (none, { c with map := fun k => if k = key then none else c.map k })
  | none => (none, c)

/-- `AppCache::set`: insert or replace the entry for `key` with
`(value, Instant::now())`. -/
def AppCache.set (c : AppCache) (key value : String) (now : Nat) : AppCache :=
  { c with map := fun k => if k = key then some (value, now) else c.map k }

/-- Run a sequence of `get` calls on a single key at the given times,
keeping only the resulting cache state (models intervening reads). -/
def AppCache.getMany (c : AppCache) (key : String) : List Nat → AppCache
  | [] => c
  | t :: ts => ((c.get key t).snd).getMany key ts

/-- Embedding of `RateLimiter` (`src/rate_limit.rs`): per-client timestamp
vectors plus the fixed `limit` and `window`. -/
structure RateLimiter where
  clients : String → List Nat
  limit : Nat
  window : Nat

/-- `RateLimiter::new(limit, window)`: empty client map. -/
def RateLimiter.new (limit window : Nat) : RateLimiter :=
  { clients := fun _ => [], limit := limit, window := window }

/-- The prune pass of `allow`:
`entry.retain(|&t| now.duration_since(t) < window)`. -/
def pruneWin (now window : Nat) (l : List Nat) : List Nat :=
  l.filter (fun t => decide (now - t < window))

/-- `RateLimiter::allow`: prune timestamps older than `window`, then admit
(append `now`, return `true`) iff the pruned count is below `limit`.
Returns the verdict together with the post-call limiter state. -/
def RateLimiter.allow (r : RateLimiter) (ip : String) (now : Nat) :
    Bool × RateLimiter :=
  let entry := pruneWin now r.window (r.clients ip)
  if entry.length < r.limit then
    (true, { r with clients := fun k => if k = ip then entry ++ [now] else r.clients k })
  else
    (false, { r with clients := fun k => if k = ip then entry else r.clients k })

/-- Run a sequence of `allow` calls for a single client at the given times,
collecting the verdicts and the final limiter state. -/
def RateLimiter.allowRun (r : RateLimiter) (ip : String) :
    List Nat → List Bool × RateLimiter
  | [] => ([], r)
  | t :: ts =>
      let p := r.allow ip t
      let q := p.snd.allowRun ip ts
      (p.fst :: q.fst, q.snd)

/-! ### Basic lemmas about `AppCache` -/

theorem AppCache.new_ttl : AppCache.new.ttl = 300 := rfl

theorem AppCache.set_ttl (c : AppCache) (k v : String) (t : Nat) :
    (c.set k v t).ttl = c.ttl := rfl

theorem AppCache.set_map_self (c : AppCache) (k v : String) (t : Nat) :
    (c.set k v t).map k = some (v, t) := by
  simp [AppCache.set]

theorem AppCache.get_ttl (c : AppCache) (k : String) (now : Nat) :
    ((c.get k now).snd).ttl = c.ttl := by
  unfold AppCache.get
  cases h : c.map k with
  | none => rfl
  | some p =>
      obtain ⟨v, ts⟩ := p
      dsimp only
      split <;> rfl

theorem AppCache.get_of_none {c : AppCache} {k : String} (now : Nat)
    (h : c.map k = none) : c.get k now = (none, c) := by
  simp [AppCache.get, h]

theorem AppCache.get_of_fresh {c : AppCache} {k v : String} {ts : Nat}
    (now : Nat) (h : c.map k = some (v, ts)) (hf : now - ts < c.ttl) :
    c.get k now = (some v, c) := by
  simp [AppCache.get, h, hf]

theorem AppCache.get_of_expired {c : AppCache} {k v : String} {ts : Nat}
    (now : Nat) (h : c.map k = some (v, ts)) (he : c.ttl ≤ now - ts) :
    (c.get k now).fst = none ∧ ((c.get k now).snd).map k = none := by
  have hlt : ¬ now - ts < c.ttl := not_lt.mpr he
  simp [AppCache.get, h, hlt]

/-- A `get` on key `k` either leaves the entry at `k` unchanged or removes
it; it removes it only when the entry was expired. -/
theorem AppCache.get_map_cases (c : AppCache) (k : String) (now : Nat) :
    ((c.get k now).snd).map k = c.map k ∨ ((c.get k now).snd).map k = none := by
  cases h : c.map k with
  | none => left; simp [AppCache.get, h]
  | some p =>
      obtain ⟨v, ts⟩ := p
      by_cases hf : now - ts < c.ttl
      · left; simp [AppCache.get, h, hf]
      · right; simp [AppCache.get, h, hf]

/-! ### Basic lemmas about `RateLimiter` -/

theorem pruneWin_sublist (now window : Nat) (l : List Nat) :
    (pruneWin now window l).Sublist l :=
  List.filter_sublist l

theorem pruneWin_length_le (now window : Nat) (l : List Nat) :
    (pruneWin now window l).length ≤ l.length :=
  List.length_filter_le _ l

theorem mem_pruneWin {now window : Nat} {l : List Nat} {t : Nat}
    (h : t ∈ pruneWin now window l) : t ∈ l ∧ now - t < window := by
  have h' := List.of_mem_filter h
  exact ⟨List.mem_of_mem_filter h, by simpa using h'⟩

/-- When every element survives the filter, pruning is the identity. -/
theorem pruneWin_eq_self {now window : Nat} {l : List Nat}
    (h : ∀ t ∈ l, now - t < window) : pruneWin now window l = l := by
  unfold pruneWin
  rw [List.filter_eq_self]
  intro t ht
  simpa using h t ht

/-- When some element fails the filter, pruning strictly shrinks the list. -/
theorem pruneWin_length_lt {now window : Nat} {l : List Nat}
    (h : ∃ t ∈ l, window ≤ now - t) :
    (pruneWin now window l).length < l.length := by
  obtain ⟨t, ht, hstale⟩ := h
  rcases lt_or_eq_of_le (pruneWin_length_le now window l) with hlt | hlen
  · exact hlt
  · exfalso
    have heq := (pruneWin_sublist now window l).eq_of_length hlen
    have hmem : t ∈ pruneWin now window l := by rw [heq]; exact ht
    exact absurd (mem_pruneWin hmem).2 (not_lt.mpr hstale)

theorem RateLimiter.new_clients (limit window : Nat) (ip : String) :
    (RateLimiter.new limit window).clients ip = [] := rfl

theorem RateLimiter.new_limit (limit window : Nat) :
    (RateLimiter.new limit window).limit = limit := rfl

theorem RateLimiter.new_window (limit window : Nat) :
    (RateLimiter.new limit window).window = window := rfl

theorem RateLimiter.allow_limit (r : RateLimiter) (ip : String) (now : Nat) :
    ((r.allow ip now).snd).limit = r.limit := by
  by_cases h : (pruneWin now r.window (r.clients ip)).length < r.limit <;>
    simp [RateLimiter.allow, h]

theorem RateLimiter.allow_window (r : RateLimiter) (ip : String) (now : Nat) :
    ((r.allow ip now).snd).window = r.window := by
  by_cases h : (pruneWin now r.window (r.clients ip)).length < r.limit <;>
    simp [RateLimiter.allow, h]

/-- The verdict of `allow` is exactly "pruned count below `limit`". -/
theorem RateLimiter.allow_fst (r : RateLimiter) (ip : String) (now : Nat) :
    (r.allow ip now).fst =
      decide ((pruneWin now r.window (r.clients ip)).length < r.limit) := by
  unfold RateLimiter.allow
  by_cases h : (pruneWin now r.window (r.clients ip)).length < r.limit <;>
    simp [h]

/-- The post-call sequence of the called client: pruned, plus `now` iff
admitted. -/
theorem RateLimiter.allow_clients_self (r : RateLimiter) (ip : String)
    (now : Nat) :
    ((r.allow ip now).snd).clients ip =
      if (pruneWin now r.window (r.clients ip)).length < r.limit then
        pruneWin now r.window (r.clients ip) ++ [now]
      else pruneWin now r.window (r.clients ip) := by
  unfold RateLimiter.allow
  by_cases h : (pruneWin now r.window (r.clients ip)).length < r.limit <;>
    simp [h]

/-- `allow` never touches the stored sequence of a different client. -/
theorem RateLimiter.allow_clients_other (r : RateLimiter) {a b : String}
    (now : Nat) (h : b ≠ a) :
    ((r.allow a now).snd).clients b = r.clients b := by
  by_cases hc : (pruneWin now r.window (r.clients a)).length < r.limit <;>
    simp [RateLimiter.allow, hc, h]

/-! ### Claim theorems: rate limiter -/

/-- C3: a client at quota is admitted again once some recorded timestamp
(in particular the oldest) is more than `window` in the past: the per-call
prune drops it, the pruned count falls below `limit`, and `allow` returns
`true` — the window slides instead of resetting in fixed buckets. -/
theorem rate_window_slides (r : RateLimiter) (ip : String) (now : Nat)
    (hlen : (r.clients ip).length ≤ r.limit)
    (hstale : ∃ t ∈ r.clients ip, r.window < now - t) :
    (r.allow ip now).fst = true := by
  rw [RateLimiter.allow_fst]
  have hlt : (pruneWin now r.window (r.clients ip)).length <
      (r.clients ip).length := by
    apply pruneWin_length_lt
    obtain ⟨t, ht, hs⟩ := hstale
    exact ⟨t, ht, le_of_lt hs⟩
  simpa using lt_of_lt_of_le hlt hlen

/-- Witness for C3: `limit = 2`, `window = 60`, stored timestamps `[0, 0]`
(at quota); at `now = 61` the call is admitted again. -/
theorem rate_window_slides_witness :
    ((RateLimiter.mk (fun _ => [0, 0]) 2 60).allow "1.2.3.4" 61).fst = true :=
  rate_window_slides (RateLimiter.mk (fun _ => [0, 0]) 2 60) "1.2.3.4" 61
    (by decide) (by decide)

/-- C6: state invariant preserved by `allow` (for positive `window`): after
the call, every timestamp stored for the called client is within the
window relative to `now`, and the stored count stays at most `limit`
whenever it was at most `limit` before the call (excess is possible only
transiently, before the prune pass inside the call). -/
theorem rate_invariant_preserved (r : RateLimiter) (ip : String) (now : Nat)
    (hw : 0 < r.window) (hlen : (r.clients ip).length ≤ r.limit) :
    (∀ t ∈ ((r.allow ip now).snd).clients ip, now - t < r.window) ∧
    (((r.allow ip now).snd).clients ip).length ≤ r.limit := by
  rw [RateLimiter.allow_clients_self]
  by_cases h : (pruneWin now r.window (r.clients ip)).length < r.limit
  · rw [if_pos h]
    constructor
    · intro t ht
      rcases List.mem_append.mp ht with hm | hm
      · exact (mem_pruneWin hm).2
      · have ht' : t = now := by simpa using hm
        subst ht'
        simpa [Nat.sub_self] using hw
    · simpa [List.length_append] using Nat.succ_le_of_lt h
  · rw [if_neg h]
    exact ⟨fun t ht => (mem_pruneWin ht).2,
      le_trans (pruneWin_length_le now r.window _) hlen⟩

/-- Witness for C6 at a fresh limiter with `limit = 2`, `window = 60`. -/
theorem rate_invariant_preserved_witness :
    (∀ t ∈ (((RateLimiter.new 2 60).allow "a" 5).snd).clients "a",
        5 - t < (RateLimiter.new 2 60).window) ∧
    ((((RateLimiter.new 2 60).allow "a" 5).snd).clients "a").length ≤
      (RateLimiter.new 2 60).limit :=
  rate_invariant_preserved (RateLimiter.new 2 60) "a" 5 (by decide) (by decide)

/-- C7: a rejected attempt consumes no quota: whenever `allow` returns
`false`, the client's stored sequence after the call is exactly the pruned
sequence — no timestamp is appended. -/
theorem rate_reject_consumes_no_quota (r : RateLimiter) (ip : String)
    (now : Nat) (h : (r.allow ip now).fst = false) :
    ((r.allow ip now).snd).clients ip = pruneWin now r.window (r.clients ip) := by
  rw [RateLimiter.allow_fst] at h
  rw [RateLimiter.allow_clients_self, if_neg (by simpa using h)]

/-- Witness for C7: two fresh timestamps at quota (`limit = 2`), call at
`now = 30` is rejected and leaves the sequence exactly pruned. -/
theorem rate_reject_consumes_no_quota_witness :
    (((RateLimiter.mk (fun _ => [0, 0]) 2 60).allow "a" 30).snd).clients "a" =
      pruneWin 30 60 ((RateLimiter.mk (fun _ => [0, 0]) 2 60).clients "a") :=
  rate_reject_consumes_no_quota (RateLimiter.mk (fun _ => [0, 0]) 2 60) "a" 30
    (by decide)

/-- C8: client isolation: an `allow` call for client `a` (including one
that exhausts or is past `a`'s quota) neither changes the stored sequence
of a different client `b` nor the verdict of a subsequent `allow` for `b`. -/
theorem rate_client_isolation (r : RateLimiter) (a b : String)
    (now later : Nat) (h : a ≠ b) :
    ((r.allow a now).snd).clients b = r.clients b ∧
    (((r.allow a now).snd).allow b later).fst = (r.allow b later).fst := by
  have hcb := RateLimiter.allow_clients_other r now (Ne.symm h)
  refine ⟨hcb, ?_⟩
  rw [RateLimiter.allow_fst, RateLimiter.allow_fst, hcb,
    RateLimiter.allow_window, RateLimiter.allow_limit]

/-- Witness for C8 with clients `"A"` and `"B"` on a fresh limiter. -/
theorem rate_client_isolation_witness :
    (((RateLimiter.new 2 60).allow "A" 0).snd).clients "B" =
      (RateLimiter.new 2 60).clients "B" ∧
    ((((RateLimiter.new 2 60).allow "A" 0).snd).allow "B" 1).fst =
      ((RateLimiter.new 2 60).allow "B" 1).fst :=
  rate_client_isolation (RateLimiter.new 2 60) "A" "B" 0 1 (by decide)

/-- C10: with `limit = 0` the limiter always rejects: `allow` returns
`false` for every client and every time (the pruned count is never below
zero), appends nothing, and construction itself succeeds rather than
failing. -/
theorem rate_limit_zero_always_rejects (r : RateLimiter) (ip : String)
    (now : Nat) (h : r.limit = 0) :
    (r.allow ip now).fst = false ∧
    ((r.allow ip now).snd).clients ip = pruneWin now r.window (r.clients ip) := by
  have hfst : (r.allow ip now).fst = false := by
    rw [RateLimiter.allow_fst, h]
    simp
  refine ⟨hfst, ?_⟩
  rw [RateLimiter.allow_clients_self, h, if_neg (by simp)]

/-- Witness for C10: `RateLimiter::new(0, 60)` rejects a fresh client. -/
theorem rate_limit_zero_always_rejects_witness :
    ((RateLimiter.new 0 60).allow "1.2.3.4" 5).fst = false ∧
    (((RateLimiter.new 0 60).allow "1.2.3.4" 5).snd).clients "1.2.3.4" =
      pruneWin 5 60 ((RateLimiter.new 0 60).clients "1.2.3.4") :=
  rate_limit_zero_always_rejects (RateLimiter.new 0 60) "1.2.3.4" 5 rfl

/-! ### Claim theorems: cache -/

/-- C4: `get` on an expired entry removes it as a side effect and returns
`none`; `get` on an absent key returns `none` (and changes nothing).  Both
outcomes are the same `none` of the `Option` result type — `get` never
signals a distinct error, so a caller cannot tell a never-cached key from
an expired one. -/
theorem cache_miss_uniform_none (c : AppCache) (k : String) (now : Nat) :
    (c.map k = none → c.get k now = (none, c)) ∧
    (∀ v ts, c.map k = some (v, ts) → c.ttl ≤ now - ts →
      (c.get k now).fst = none ∧ ((c.get k now).snd).map k = none) := by
  constructor
  · intro h
    exact AppCache.get_of_none now h
  · intro v ts h he
    exact AppCache.get_of_expired now h he

/-- Witness for C4: entry set at time 0 with `ttl = 300`, read at
`now = 300` — exactly expired: result is `none` and the entry is gone. -/
theorem cache_miss_uniform_none_witness :
    ((AppCache.new.set "k" "v" 0).get "k" 300).fst = none ∧
    (((AppCache.new.set "k" "v" 0).get "k" 300).snd).map "k" = none :=
  (cache_miss_uniform_none (AppCache.new.set "k" "v" 0) "k" 300).2 "v" 0
    (by simp [AppCache.set, AppCache.new]) (by decide)

/-- C5: overwrite is wholesale and last-writer-wins: after
`set k v1 t1; set k v2 t2`, the entry for `k` is exactly `(v2, t2)` — the
TTL clock restarts at the second `set` — and an immediate `get` (at `t2`)
returns `v2`, never `v1` (for any positive `ttl`). -/
theorem cache_overwrite_last_writer_wins (c : AppCache) (k v1 v2 : String)
    (t1 t2 : Nat) (h : 0 < c.ttl) :
    ((c.set k v1 t1).set k v2 t2).map k = some (v2, t2) ∧
    (((c.set k v1 t1).set k v2 t2).get k t2).fst = some v2 := by
  have hm : ((c.set k v1 t1).set k v2 t2).map k = some (v2, t2) :=
    AppCache.set_map_self (c.set k v1 t1) k v2 t2
  refine ⟨hm, ?_⟩
  have hget := AppCache.get_of_fresh t2 hm (by simpa [Nat.sub_self] using h)
  rw [hget]

/-- Witness for C5 on a fresh cache: set `"a"` at 0, overwrite with `"b"`
at 5, read at 5. -/
theorem cache_overwrite_last_writer_wins_witness :
    ((AppCache.new.set "k" "a" 0).set "k" "b" 5).map "k" = some ("b", 5) ∧
    (((AppCache.new.set "k" "a" 0).set "k" "b" 5).get "k" 5).fst = some "b" :=
  cache_overwrite_last_writer_wins AppCache.new "k" "a" "b" 0 5 (by decide)

/-! ### Runs of `allow` calls -/

theorem RateLimiter.allowRun_append (ip : String) (l₁ l₂ : List Nat) :
    ∀ r : RateLimiter,
    r.allowRun ip (l₁ ++ l₂) =
      ((r.allowRun ip l₁).fst ++ (((r.allowRun ip l₁).snd).allowRun ip l₂).fst,
        (((r.allowRun ip l₁).snd).allowRun ip l₂).snd) := by
  induction l₁ with
  | nil => intro r; simp [RateLimiter.allowRun]
  | cons t ts ih => intro r; simp [RateLimiter.allowRun, ih]

/-- A run in which every call lands while the whole history still fits in
the window and under the quota grants every call and appends every
timestamp in order. -/
theorem RateLimiter.allowRun_grants_all (ip : String) (times : List Nat) :
    ∀ r : RateLimiter,
    List.Pairwise (fun a b => a ≤ b ∧ b - a < r.window)
      (r.clients ip ++ times) →
    (r.clients ip).length + times.length ≤ r.limit →
    (r.allowRun ip times).fst = List.replicate times.length true ∧
    ((r.allowRun ip times).snd).clients ip = r.clients ip ++ times ∧
    ((r.allowRun ip times).snd).limit = r.limit ∧
    ((r.allowRun ip times).snd).window = r.window := by
  induction times with
  | nil =>
      intro r _ _
      simp [RateLimiter.allowRun]
  | cons t ts ih =>
      intro r hpair hlen
      obtain ⟨hcl, hts, hcross⟩ := List.pairwise_append.mp hpair
      have hkeep : ∀ a ∈ r.clients ip, t - a < r.window := by
        intro a ha
        exact (hcross a ha t (by simp)).2
      have hprune : pruneWin t r.window (r.clients ip) = r.clients ip :=
        pruneWin_eq_self hkeep
      have hlt : (r.clients ip).length < r.limit := by
        simp only [List.length_cons] at hlen
        omega
      have hfst : (r.allow ip t).fst = true := by
        rw [RateLimiter.allow_fst, hprune]
        simpa using hlt
      have hcl' : ((r.allow ip t).snd).clients ip = r.clients ip ++ [t] := by
        rw [RateLimiter.allow_clients_self, hprune, if_pos hlt]
      have hw' : ((r.allow ip t).snd).window = r.window :=
        RateLimiter.allow_window r ip t
      have hl' : ((r.allow ip t).snd).limit = r.limit :=
        RateLimiter.allow_limit r ip t
      have hpair' :
          List.Pairwise (fun a b => a ≤ b ∧ b - a < ((r.allow ip t).snd).window)
            (((r.allow ip t).snd).clients ip ++ ts) := by
        rw [hcl', hw', List.append_assoc, List.singleton_append]
        exact hpair
      have hlen' :
          (((r.allow ip t).snd).clients ip).length + ts.length ≤
            ((r.allow ip t).snd).limit := by
        rw [hcl', hl']
        simp only [List.length_append, List.length_cons, List.length_nil]
          at hlen ⊢
        omega
      obtain ⟨ihf, ihc, ihl, ihw⟩ := ih ((r.allow ip t).snd) hpair' hlen'
      refine ⟨?_, ?_, ?_, ?_⟩
      · simp [RateLimiter.allowRun, hfst, ihf, List.replicate_succ]
      · simp only [RateLimiter.allowRun]
        rw [ihc, hcl', List.append_assoc, List.singleton_append]
      · simp only [RateLimiter.allowRun]
        rw [ihl, hl']
      · simp only [RateLimiter.allowRun]
        rw [ihw, hw']

/-- C2: admission count: on a fresh limiter with `limit = N`,
`window = W`, a single client making `N + 1` calls all within less than
`W` seconds of each other (times nondecreasing) gets `true` on the first
`N` calls and `false` on the `(N+1)`th. -/
theorem rate_admission_count (N W : Nat) (ip : String) (times : List Nat)
    (hlen : times.length = N + 1)
    (hpair : List.Pairwise (fun a b => a ≤ b ∧ b - a < W) times) :
    ((RateLimiter.new N W).allowRun ip times).fst =
      List.replicate N true ++ [false] := by
  have hne : times ≠ [] := by
    intro h
    rw [h] at hlen
    simp at hlen
  obtain ⟨l, tl, rfl⟩ : ∃ l tl, times = l ++ [tl] :=
    ⟨times.dropLast, times.getLast hne, (List.dropLast_append_getLast hne).symm⟩
  have hllen : l.length = N := by
    simp only [List.length_append, List.length_cons, List.length_nil] at hlen
    omega
  obtain ⟨hl_pair, _, hcross⟩ := List.pairwise_append.mp hpair
  have hgrant := RateLimiter.allowRun_grants_all ip l (RateLimiter.new N W)
    (by simpa [RateLimiter.new_clients, RateLimiter.new_window] using hl_pair)
    (by simp [RateLimiter.new_clients, RateLimiter.new_limit, hllen])
  obtain ⟨hf, hc, hl, hw⟩ := hgrant
  rw [RateLimiter.allowRun_append]
  rw [hf, hllen]
  set r' := ((RateLimiter.new N W).allowRun ip l).snd with hr'
  have hcl : r'.clients ip = l := by
    simpa [RateLimiter.new] using hc
  have hkeep : ∀ a ∈ r'.clients ip, tl - a < r'.window := by
    intro a ha
    rw [hcl] at ha
    rw [hw]
    exact (hcross a ha tl (by simp)).2
  have hprune : pruneWin tl r'.window (r'.clients ip) = l := by
    rw [pruneWin_eq_self hkeep, hcl]
  have hfstl : (r'.allow ip tl).fst = false := by
    rw [RateLimiter.allow_fst, hprune, hl, hllen, RateLimiter.new_limit]
    simp
  simp [RateLimiter.allowRun, hfstl]

/-- Witness for C2: `limit = 2`, `window = 60`, calls at `0, 0, 10`:
`true, true, false`. -/
theorem rate_admission_count_witness :
    ((RateLimiter.new 2 60).allowRun "1.2.3.4" [0, 0, 10]).fst =
      List.replicate 2 true ++ [false] :=
  rate_admission_count 2 60 "1.2.3.4" [0, 0, 10] rfl (by decide)

/-! ### Runs of `get` calls on one key -/

theorem AppCache.getMany_ttl (k : String) (times : List Nat) :
    ∀ c : AppCache, (c.getMany k times).ttl = c.ttl := by
  induction times with
  | nil => intro c; rfl
  | cons t ts ih =>
      intro c
      rw [AppCache.getMany, ih, AppCache.get_ttl]

/-- Intervening reads all made while the entry is still fresh leave the
entry untouched. -/
theorem AppCache.getMany_fresh (k v : String) (t0 : Nat) (times : List Nat) :
    ∀ c : AppCache, c.map k = some (v, t0) →
    (∀ u ∈ times, u - t0 < c.ttl) →
    (c.getMany k times).map k = some (v, t0) := by
  induction times with
  | nil => intro c h _; exact h
  | cons t ts ih =>
      intro c h hfr
      have hstep : c.get k t = (some v, c) :=
        AppCache.get_of_fresh t h (hfr t (by simp))
      rw [AppCache.getMany, hstep]
      exact ih c h (fun u hu => hfr u (by simp [hu]))

/-- Intervening reads can only keep the entry as it was or remove it. -/
theorem AppCache.getMany_cases (k v : String) (t0 : Nat) (times : List Nat) :
    ∀ c : AppCache,
    c.map k = some (v, t0) ∨ c.map k = none →
    (c.getMany k times).map k = some (v, t0) ∨
      (c.getMany k times).map k = none := by
  induction times with
  | nil => intro c h; exact h
  | cons t ts ih =>
      intro c h
      rw [AppCache.getMany]
      apply ih
      rcases AppCache.get_map_cases c k t with hc | hc
      · rw [hc]; exact h
      · right; exact hc

/-- C1: absolute (non-sliding) TTL: with `ttl = 300` (the value
`AppCache::new` fixes at construction), after `set k v` at `t0`, a `get k`
at quiescence time `tq` returns `some v` when `tq - t0 < 300` and `none`
when `tq - t0 ≥ 300`, regardless of any intervening `get` calls on `k` at
times up to `tq` — reads do not refresh the entry. -/
theorem cache_freshness_absolute_ttl (c : AppCache) (k v : String)
    (t0 tq : Nat) (gets : List Nat) (httl : c.ttl = 300) (_ht : t0 ≤ tq)
    (hg : ∀ u ∈ gets, u ≤ tq) :
    AppCache.new.ttl = 300 ∧
    (((c.set k v t0).getMany k gets).get k tq).fst =
      (if tq - t0 < 300 then some v else none) := by
  refine ⟨rfl, ?_⟩
  have hm1 : (c.set k v t0).map k = some (v, t0) := AppCache.set_map_self c k v t0
  have httl1 : (c.set k v t0).ttl = 300 := httl
  have httl2 : ((c.set k v t0).getMany k gets).ttl = 300 := by
    rw [AppCache.getMany_ttl]
    exact httl1
  by_cases hfresh : tq - t0 < 300
  · have hmap : ((c.set k v t0).getMany k gets).map k = some (v, t0) := by
      apply AppCache.getMany_fresh k v t0 gets (c.set k v t0) hm1
      intro u hu
      have hsub : u - t0 ≤ tq - t0 := Nat.sub_le_sub_right (hg u hu) t0
      rw [httl1]
      exact lt_of_le_of_lt hsub hfresh
    rw [if_pos hfresh, AppCache.get_of_fresh tq hmap (by rw [httl2]; exact hfresh)]
  · rw [if_neg hfresh]
    rcases AppCache.getMany_cases k v t0 gets (c.set k v t0) (Or.inl hm1)
      with hmap | hmap
    · exact (AppCache.get_of_expired tq hmap
        (by rw [httl2]; exact not_lt.mp hfresh)).1
    · rw [AppCache.get_of_none tq hmap]

/-- Witness for C1: set at 0, an intervening read at 50, query at 100
(fresh: `some "v"`). -/
theorem cache_freshness_absolute_ttl_witness :
    AppCache.new.ttl = 300 ∧
    (((AppCache.new.set "k" "v" 0).getMany "k" [50]).get "k" 100).fst =
      (if 100 - 0 < 300 then some "v" else none) :=
  cache_freshness_absolute_ttl AppCache.new "k" "v" 0 100 [50] rfl
    (by decide) (by decide)
